import Mathlib

/-!
RcppParallel: the tinythread backend of `parallelFor` / `parallelReduce`.

A shallow embedding of `inst/include/RcppParallel.h`:

* `IndexRange`, `Work`, `workerThread`, `splitInputRange`, `ttParallelFor`,
  `ttParallelReduce` are translated from the header.
* `std::size_t` values are natural numbers below `SIZE_MOD = 2 ^ 64`; every
  addition and subtraction of the source is reduced modulo `SIZE_MOD`.
* `tthread::thread::hardware_concurrency()` is an external query; its value is a
  parameter of `splitInputRange`.  Integer division by zero is undefined
  behaviour in C++ and is modelled by `none`.
* A `Worker` is a behaviour (`call`) acting on an object state `σ`; a call either
  returns or raises, in both cases leaving a state behind.  The same holds for
  `split` and `join` of a `ReduceWorker`, and its constructor may raise as well.
  `workerThread` catches what `call` raises; `ttParallelReduce` calls the
  constructor, `split` and `join` outside any handler, so what they raise leaves
  the call at once.
* Threads: every spawned thread runs `workerThread` on its own `Work` item.  The
  model runs each thread body atomically at the point where it is spawned.  In
  `ttParallelReduce` every thread owns its own freshly allocated instance, so the
  states do not depend on this choice; the event log is one linearisation of the
  events, and the order between the events of one instance (split, invoke, join)
  is the same in every linearisation.
-/

namespace RcppParallel

/-- Modulus of `std::size_t` arithmetic. -/
def SIZE_MOD : Nat := 2 ^ 64

/-- The class `IndexRange`: a begin and an (exclusive) end index. -/
structure IndexRange where
  begin_ : Nat
  end_ : Nat
deriving DecidableEq

/-- Result of executing code that may raise a C++ exception: the state left
behind, and whether the code returned or an exception is propagating. -/
inductive Outcome (σ : Type) where
  | returned (s : σ)
  | raised (s : σ)
deriving DecidableEq

/-- The state carried by an outcome. -/
def Outcome.state {σ : Type} : Outcome σ → σ
  | .returned s => s
  | .raised s => s

/-- The struct `Worker`: `operator()(begin, end)` acting on an object of state `σ`. -/
structure Worker (σ : Type) where
  call : σ → Nat → Nat → Outcome σ

/-- The struct `ReduceWorker<T>`: a `Worker` with `split(source)` and `join(rhs)`,
together with the default constructor `T()` used by `new T()`.
`fresh` is the state of a newly constructed object, `none` when the constructor
raises.  `split self source` and `join self rhs` give the new state of `self`,
and either of them may raise. -/
structure ReduceWorker (σ : Type) extends Worker σ where
  fresh : Option σ
  split : σ → σ → Outcome σ
  join : σ → σ → Outcome σ

/-- Which `Worker` object a `Work` item refers to: the object passed in by the
caller, or the `k`-th object allocated by `new T()` during the call. -/
inductive Ref where
  | caller
  | allocated (k : Nat)
deriving DecidableEq

/-- The struct `Work`: a range paired with a reference to a worker. -/
structure Work where
  range : IndexRange
  worker : Ref
deriving DecidableEq

/-- Observable events of one call. -/
inductive Event where
  /-- Allocation `pWorker = new T(); pWorker->split(worker)` of `workers[k]`. -/
  | split (k : Nat)
  /-- Invocation `pWork->worker(pWork->range.begin(), pWork->range.end())` in `workerThread`. -/
  | invoke (target : Ref) (range : IndexRange)
  /-- Merge `worker.join(*workers[k])`. -/
  | join (k : Nat)
deriving DecidableEq

/-- The thread function `workerThread`: invoke the worker on the range of the
work item inside `try { ... } catch(...) { }`.  `obj` is the state of the object
`pWork->worker` refers to. -/
def workerThread {σ : Type} (w : Worker σ) (data : Work) (obj : σ) (log : List Event) :
    Outcome (σ × List Event) :=
  let log1 := log ++ [Event.invoke data.worker data.range]
  match w.call obj data.range.begin_ data.range.end_ with
  | .returned s => .returned (s, log1)   -- followed by `delete pWork`
  | .raised s => .returned (s, log1)     -- `catch(...) { }`

/-- The `for` loop of `splitInputRange`; the first argument is the number of
iterations left (`threads - i`), `ranges` the vector built so far. -/
def splitLoop (chunkSize rangeEnd : Nat) : Nat → Nat → List IndexRange → List IndexRange
  | 0, _, ranges => ranges
  | n + 1, nextIndex, ranges =>
    let begin_ := nextIndex
    let end_ := min ((begin_ + chunkSize) % SIZE_MOD) rangeEnd
    splitLoop chunkSize rangeEnd n end_ (ranges ++ [IndexRange.mk begin_ end_])

/-- The function `splitInputRange`, with the value of
`tthread::thread::hardware_concurrency()` as a parameter.  `none` is the
undefined behaviour of `length / threads` when `threads` is zero. -/
def splitInputRange (hardware_concurrency : Nat) (range : IndexRange) :
    Option (List IndexRange) :=
  let threads := hardware_concurrency
  let length := (range.end_ + SIZE_MOD - range.begin_) % SIZE_MOD
  if threads = 0 then none
  else
    let chunkSize := length / threads
    some (splitLoop chunkSize range.end_ threads range.begin_ [])

/-- The thread-creating loop of `ttParallelFor`: one thread per range, each
running `workerThread` on `Work(ranges[i], worker)`.  An exception leaving a
thread function would end the call abnormally. -/
def forThreads {σ : Type} (w : Worker σ) :
    List IndexRange → σ → List Event → Outcome (σ × List Event)
  | [], worker, log => .returned (worker, log)
  | r :: rest, worker, log =>
    match workerThread w (Work.mk r Ref.caller) worker log with
    | .returned (worker1, log1) => forThreads w rest worker1 log1
    | .raised x => .raised x

/-- The function `ttParallelFor`: final state of the caller's worker and the
event log. -/
def ttParallelFor {σ : Type} (hardware_concurrency : Nat) (begin_ end_ : Nat)
    (w : Worker σ) (worker : σ) : Option (Outcome (σ × List Event)) :=
  match splitInputRange hardware_concurrency (IndexRange.mk begin_ end_) with
  | none => none
  | some ranges => some (forThreads w ranges worker [])

/-- First loop of `ttParallelReduce`: for `ranges[i]`, allocate `new T()`, call
`split` on it with the caller's worker as source, record it in `workers` and
start a thread on `Work(ranges[i], *pWorker)`.  `i` is the loop index.  Neither
the constructor nor `split` is called inside a handler: when one of them raises
the loop is left at once. -/
def reduceSpawn {σ : Type} (w : ReduceWorker σ) (worker : σ) :
    List IndexRange → Nat → List σ → List Event → Outcome (List σ × List Event)
  | [], _, workers, log => .returned (workers, log)
  | r :: rest, i, workers, log =>
    match w.fresh with                                   -- `T* pWorker = new T();`
    | none => .raised (workers, log)
    | some obj =>
      match w.split obj worker with                      -- `pWorker->split(worker)`
      | .raised _ => .raised (workers, log ++ [Event.split i])
      | .returned pWorker =>
        match workerThread w.toWorker (Work.mk r (Ref.allocated i)) pWorker
            (log ++ [Event.split i]) with
        | .returned (p, log1) => reduceSpawn w worker rest (i + 1) (workers ++ [p]) log1
        | .raised (p, log1) => .raised (workers ++ [p], log1)

/-- Second loop of `ttParallelReduce`: for each thread in index order, wait
for it, then `worker.join(*workers[i])`.  `join` is not called inside a handler:
when it raises the loop is left at once and the later instances are not joined. -/
def reduceJoin {σ : Type} (w : ReduceWorker σ) :
    List σ → Nat → σ → List Event → Outcome (σ × List Event)
  | [], _, worker, log => .returned (worker, log)
  | p :: rest, i, worker, log =>
    match w.join worker p with
    | .returned worker1 => reduceJoin w rest (i + 1) worker1 (log ++ [Event.join i])
    | .raised worker1 => .raised (worker1, log ++ [Event.join i])

/-- The function `ttParallelReduce`: final state of the caller's worker and
the event log. -/
def ttParallelReduce {σ : Type} (hardware_concurrency : Nat) (begin_ end_ : Nat)
    (w : ReduceWorker σ) (worker : σ) : Option (Outcome (σ × List Event)) :=
  match splitInputRange hardware_concurrency (IndexRange.mk begin_ end_) with
  | none => none
  | some ranges =>
    match reduceSpawn w worker ranges 0 [] [] with
    | .returned (workers, log) => some (reduceJoin w workers 0 worker log)
    | .raised (_, log) => some (.raised (worker, log))

/-! ## Workers of the test scenarios -/

/-- Body of the loop `for (i = begin; i < end; ++i) value += i`; the first
argument is the number of iterations left. -/
def sumLoop : Nat → Nat → Nat → Nat
  | 0, _, value => value
  | n + 1, i, value => sumLoop n (i + 1) (value + i)

/-- The integer-sum `ReduceWorker` of the reduction scenario: `operator()` adds
the indices of its subrange to the accumulator, `split` starts at `0`, `join`
adds the other accumulator. -/
def sumWorker : ReduceWorker Nat where
  call := fun value b e => .returned (sumLoop (e - b) b value)
  fresh := some 0
  split := fun _ _ => .returned 0
  join := fun value rhs => .returned (value + rhs)

/-- The integer-sum `ReduceWorker` with a `join` that raises before adding
anything. -/
def joinRaisingWorker : ReduceWorker Nat where
  call := fun value b e => .returned (sumLoop (e - b) b value)
  fresh := some 0
  split := fun _ _ => .returned 0
  join := fun value _ => .raised value

/-- Body of the loop `for (i = begin; i < end; ++i) buffer[i] = i * i`. -/
def squareLoop : Nat → Nat → List Nat → List Nat
  | 0, _, buffer => buffer
  | n + 1, i, buffer => squareLoop n (i + 1) (buffer.set i (i * i))

/-- The `Worker` of the squares scenario: writes `i * i` into `buffer[i]` for
each index of its subrange. -/
def squareWorker : Worker (List Nat) where
  call := fun buffer b e => .returned (squareLoop (e - b) b buffer)

/-- A `Worker` whose every invocation raises, leaving its state untouched. -/
def raisingWorker : Worker Unit where
  call := fun s _ _ => .raised s

/-- Sum of the lengths of the ranges the worker was invoked on. -/
def invokedLength : List Event → Nat
  | [] => 0
  | Event.invoke _ r :: rest => (r.end_ - r.begin_) + invokedLength rest
  | _ :: rest => invokedLength rest

/-- The events logged by the first loop of `ttParallelReduce` for the ranges
`rs`, the first of which has index `i`: a split and an invocation per range. -/
def spawnEvents : Nat → List IndexRange → List Event
  | _, [] => []
  | i, r :: rest =>
    Event.split i :: Event.invoke (Ref.allocated i) r :: spawnEvents (i + 1) rest

/-- The events logged by the second loop of `ttParallelReduce` for `n`
threads, the first of which has index `i`: one join per thread. -/
def joinEvents : Nat → Nat → List Event
  | _, 0 => []
  | i, n + 1 => Event.join i :: joinEvents (i + 1) n

/-- Whether an event is a split. -/
def Event.isSplit : Event → Bool
  | .split _ => true
  | _ => false

/-- Whether an event is a join. -/
def Event.isJoin : Event → Bool
  | .join _ => true
  | _ => false

/-- The list of `n` consecutive chunks of size `q` starting at `b`:
`[b + i * q, b + (i + 1) * q)` for `i < n`. -/
def chunks (b q n : Nat) : List IndexRange :=
  (List.range n).map (fun i => IndexRange.mk (b + i * q) (b + (i + 1) * q))

/-! ## Auxiliary lemmas -/

theorem chunks_zero (b q : Nat) : chunks b q 0 = [] := by
  simp [chunks]

theorem chunks_succ (b q n : Nat) :
    chunks b q (n + 1) = IndexRange.mk b (b + q) :: chunks (b + q) q n := by
  unfold chunks
  rw [List.range_succ_eq_map, List.map_cons, List.map_map]
  simp only [Nat.zero_mul, Nat.add_zero, Nat.zero_add, Nat.one_mul]
  congr 1
  apply List.map_congr_left
  intro i _
  simp only [Function.comp, Nat.succ_eq_add_one, IndexRange.mk.injEq]
  constructor <;> ring

theorem chunks_length (b q n : Nat) : (chunks b q n).length = n := by
  simp [chunks]

theorem chunks_getElem? (b q n i : Nat) :
    (chunks b q n)[i]? =
      if i < n then some (IndexRange.mk (b + i * q) (b + (i + 1) * q)) else none := by
  unfold chunks
  by_cases h : i < n
  · simp [h, List.getElem?_range]
  · simp [h]
    omega

theorem mem_chunks (b q n : Nat) (r : IndexRange) :
    r ∈ chunks b q n ↔ ∃ i, i < n ∧ r = IndexRange.mk (b + i * q) (b + (i + 1) * q) := by
  unfold chunks
  simp only [List.mem_map, List.mem_range]
  constructor
  · rintro ⟨i, hi, rfl⟩
    exact ⟨i, hi, rfl⟩
  · rintro ⟨i, hi, rfl⟩
    exact ⟨i, hi, rfl⟩

/-- Closed form of the splitting loop as long as the chunks fit below `rangeEnd`. -/
theorem splitLoop_eq (q e : Nat) (he : e < SIZE_MOD) :
    ∀ (n next : Nat) (acc : List IndexRange), next + n * q ≤ e →
      splitLoop q e n next acc = acc ++ chunks next q n := by
  intro n
  induction n with
  | zero =>
    intro next acc _
    simp [splitLoop, chunks_zero]
  | succ n ih =>
    intro next acc h
    have h1 : next + q + n * q ≤ e := by
      have : (n + 1) * q = n * q + q := by ring
      omega
    have h2 : (next + q) % SIZE_MOD = next + q := Nat.mod_eq_of_lt (by omega)
    have h3 : min (next + q) e = next + q := Nat.min_eq_left (by omega)
    simp only [splitLoop, h2, h3]
    rw [ih (next + q) _ h1, chunks_succ]
    simp

/-- Closed form of `splitInputRange` on a well-formed range with at least one thread. -/
theorem splitInputRange_eq (C b e : Nat) (hC : 1 ≤ C) (hbe : b ≤ e) (he : e < SIZE_MOD) :
    splitInputRange C (IndexRange.mk b e) = some (chunks b ((e - b) / C) C) := by
  have hlen : (e + SIZE_MOD - b) % SIZE_MOD = e - b := by
    have : e + SIZE_MOD - b = (e - b) + SIZE_MOD := by omega
    rw [this, Nat.add_mod_right]
    exact Nat.mod_eq_of_lt (by omega)
  have hC0 : C ≠ 0 := by omega
  have hfit : b + C * ((e - b) / C) ≤ e := by
    have := Nat.mul_div_le (e - b) C
    omega
  simp only [splitInputRange, hlen, hC0, if_false]
  rw [splitLoop_eq _ _ he C b [] hfit]
  simp

/-- Every chunk of `chunks b q n` lies inside `[b, b + n * q]`. -/
theorem chunks_bounds (b q n : Nat) (r : IndexRange) (hr : r ∈ chunks b q n) :
    b ≤ r.begin_ ∧ r.end_ = r.begin_ + q ∧ r.end_ ≤ b + n * q := by
  obtain ⟨i, hi, rfl⟩ := (mem_chunks b q n r).1 hr
  have h1 : (i + 1) * q ≤ n * q := Nat.mul_le_mul_right q hi
  have h2 : (i + 1) * q = i * q + q := by ring
  refine ⟨by simp, ?_, ?_⟩
  · simp only [h2]
    omega
  · simp only
    omega

/-- The chunks of `chunks b q n` cover exactly `[b, b + n * q)`. -/
theorem chunks_cover (b q n x : Nat) :
    (∃ r, r ∈ chunks b q n ∧ r.begin_ ≤ x ∧ x < r.end_) ↔ (b ≤ x ∧ x < b + n * q) := by
  constructor
  · rintro ⟨r, hr, h1, h2⟩
    have := chunks_bounds b q n r hr
    omega
  · rintro ⟨h1, h2⟩
    have hq : 0 < q := by
      rcases Nat.eq_zero_or_pos q with h | h
      · subst h
        simp at h2
        omega
      · exact h
    refine ⟨IndexRange.mk (b + (x - b) / q * q) (b + ((x - b) / q + 1) * q), ?_, ?_, ?_⟩
    · refine (mem_chunks b q n _).2 ⟨(x - b) / q, ?_, rfl⟩
      exact (Nat.div_lt_iff_lt_mul hq).2 (by omega)
    · have := Nat.div_mul_le_self (x - b) q
      simp only
      omega
    · simp only
      have h3 : ((x - b) / q + 1) * q = q * ((x - b) / q + 1) := by ring
      rw [h3]
      have h4 : x - b < q * ((x - b) / q + 1) := Nat.lt_mul_div_succ (x - b) hq
      omega

/-- The thread function always returns: whatever the worker does, its state and
the logged invocation are all that is left. -/
theorem workerThread_eq {σ : Type} (w : Worker σ) (data : Work) (obj : σ) (log : List Event) :
    workerThread w data obj log =
      .returned ((w.call obj data.range.begin_ data.range.end_).state,
        log ++ [Event.invoke data.worker data.range]) := by
  unfold workerThread
  cases h : w.call obj data.range.begin_ data.range.end_ <;> simp [Outcome.state]

theorem forThreads_eq {σ : Type} (w : Worker σ) :
    ∀ (rs : List IndexRange) (s : σ) (log : List Event),
      forThreads w rs s log =
        .returned (rs.foldl (fun s r => (w.call s r.begin_ r.end_).state) s,
          log ++ rs.map (Event.invoke Ref.caller)) := by
  intro rs
  induction rs with
  | nil => intro s log; simp [forThreads]
  | cons r rest ih =>
    intro s log
    simp only [forThreads, workerThread_eq]
    rw [ih]
    simp

theorem reduceSpawn_eq {σ : Type} (w : ReduceWorker σ) (worker f p0 : σ)
    (hfresh : w.fresh = some f) (hsplit : w.split f worker = .returned p0) :
    ∀ (rs : List IndexRange) (i : Nat) (workers : List σ) (log : List Event),
      reduceSpawn w worker rs i workers log =
        .returned
          (workers ++ rs.map (fun r => (w.call p0 r.begin_ r.end_).state),
            log ++ spawnEvents i rs) := by
  intro rs
  induction rs with
  | nil => intro i workers log; simp [reduceSpawn, spawnEvents]
  | cons r rest ih =>
    intro i workers log
    simp only [reduceSpawn, hfresh, hsplit, workerThread_eq]
    rw [ih]
    simp [spawnEvents]

theorem reduceJoin_eq {σ : Type} (w : ReduceWorker σ)
    (hjoin : ∀ (s rhs : σ), ∃ s1, w.join s rhs = .returned s1) :
    ∀ (ps : List σ) (i : Nat) (worker : σ) (log : List Event),
      reduceJoin w ps i worker log =
        .returned (ps.foldl (fun s p => (w.join s p).state) worker,
          log ++ joinEvents i ps.length) := by
  intro ps
  induction ps with
  | nil => intro i worker log; simp [reduceJoin, joinEvents]
  | cons p rest ih =>
    intro i worker log
    obtain ⟨s1, hs1⟩ := hjoin worker p
    have hstate : (Outcome.returned s1 : Outcome σ).state = s1 := rfl
    simp only [reduceJoin, hs1, List.foldl_cons, hstate]
    rw [ih]
    simp [joinEvents]

/-- Closed form of `ttParallelReduce` once the ranges are known, for a worker
whose constructor, `split` and `join` return. -/
theorem ttParallelReduce_eq {σ : Type} (C b e : Nat) (w : ReduceWorker σ) (s0 f : σ)
    (hfresh : w.fresh = some f)
    (hsplit : ∃ p, w.split f s0 = .returned p)
    (hjoin : ∀ (s rhs : σ), ∃ s1, w.join s rhs = .returned s1)
    (rs : List IndexRange) (h : splitInputRange C (IndexRange.mk b e) = some rs) :
    ttParallelReduce C b e w s0 =
      some (.returned
        (List.foldl (fun s p => (w.join s p).state) s0
          (rs.map (fun r => (w.call (w.split f s0).state r.begin_ r.end_).state)),
          spawnEvents 0 rs ++ joinEvents 0 rs.length)) := by
  obtain ⟨p0, hp0⟩ := hsplit
  simp [ttParallelReduce, h, reduceSpawn_eq w s0 f p0 hfresh hp0, reduceJoin_eq w hjoin, hp0,
    Outcome.state]

/-- Closed form of `ttParallelFor` once the ranges are known. -/
theorem ttParallelFor_eq {σ : Type} (C b e : Nat) (w : Worker σ) (s0 : σ)
    (rs : List IndexRange) (h : splitInputRange C (IndexRange.mk b e) = some rs) :
    ttParallelFor C b e w s0 =
      some (.returned (rs.foldl (fun s r => (w.call s r.begin_ r.end_).state) s0,
        rs.map (Event.invoke Ref.caller))) := by
  simp [ttParallelFor, h, forThreads_eq]

/-! ### Counting events -/

theorem count_split_spawnEvents (k : Nat) :
    ∀ (rs : List IndexRange) (i : Nat),
      (spawnEvents i rs).count (Event.split k) = if i ≤ k ∧ k < i + rs.length then 1 else 0 := by
  intro rs
  induction rs with
  | nil =>
    intro i
    have h : ¬ (i ≤ k ∧ k < i) := by omega
    simp [spawnEvents, h]
  | cons r rest ih =>
    intro i
    simp only [spawnEvents, List.count_cons, ih, List.length_cons, beq_iff_eq, Event.split.injEq]
    simp only [reduceCtorEq, if_false, Nat.add_zero]
    by_cases h1 : i = k
    · subst h1
      simp
    · by_cases h2 : i + 1 ≤ k ∧ k < i + 1 + rest.length
      · have h3 : i ≤ k ∧ k < i + (rest.length + 1) := by omega
        simp [h1, h2, h3]
      · have h3 : ¬ (i ≤ k ∧ k < i + (rest.length + 1)) := by omega
        simp [h1, h2, h3]

theorem count_join_spawnEvents (k : Nat) :
    ∀ (rs : List IndexRange) (i : Nat), (spawnEvents i rs).count (Event.join k) = 0 := by
  intro rs
  induction rs with
  | nil => intro i; simp [spawnEvents]
  | cons r rest ih => intro i; simp [spawnEvents, List.count_cons, ih]

theorem count_invoke_spawnEvents (k : Nat) (r : IndexRange) :
    ∀ (rs : List IndexRange) (i : Nat),
      (spawnEvents i rs).count (Event.invoke (Ref.allocated k) r) =
        if i ≤ k ∧ rs[k - i]? = some r then 1 else 0 := by
  intro rs
  induction rs with
  | nil => intro i; simp [spawnEvents]
  | cons r0 rest ih =>
    intro i
    simp only [spawnEvents, List.count_cons, ih, beq_iff_eq, Event.invoke.injEq,
      Ref.allocated.injEq]
    simp only [reduceCtorEq, if_false, Nat.add_zero]
    by_cases h1 : i = k
    · subst h1
      have h2 : ¬ (i + 1 ≤ i) := by omega
      simp [h2]
    · by_cases h2 : i + 1 ≤ k
      · have h3 : i ≤ k := by omega
        have h4 : k - i = (k - (i + 1)) + 1 := by omega
        simp [h1, h2, h3, h4]
      · have h3 : ¬ (i ≤ k) := by omega
        simp [h1, h2, h3]

theorem mem_invoke_spawnEvents (t : Ref) (r : IndexRange) :
    ∀ (rs : List IndexRange) (i : Nat), Event.invoke t r ∈ spawnEvents i rs →
      ∃ k, t = Ref.allocated k ∧ i ≤ k ∧ rs[k - i]? = some r := by
  intro rs
  induction rs with
  | nil => intro i h; simp [spawnEvents] at h
  | cons r0 rest ih =>
    intro i h
    simp only [spawnEvents, List.mem_cons, reduceCtorEq, false_or, Event.invoke.injEq] at h
    rcases h with ⟨h1, h2⟩ | h
    · exact ⟨i, h1, Nat.le_refl i, by simp [h2]⟩
    · obtain ⟨k, hk1, hk2, hk3⟩ := ih (i + 1) h
      refine ⟨k, hk1, by omega, ?_⟩
      have h4 : k - i = (k - (i + 1)) + 1 := by omega
      rw [h4]
      simpa using hk3

theorem count_split_joinEvents (k : Nat) :
    ∀ (n i : Nat), (joinEvents i n).count (Event.split k) = 0 := by
  intro n
  induction n with
  | zero => intro i; simp [joinEvents]
  | succ n ih => intro i; simp [joinEvents, List.count_cons, ih]

theorem count_invoke_joinEvents (t : Ref) (r : IndexRange) :
    ∀ (n i : Nat), (joinEvents i n).count (Event.invoke t r) = 0 := by
  intro n
  induction n with
  | zero => intro i; simp [joinEvents]
  | succ n ih => intro i; simp [joinEvents, List.count_cons, ih]

theorem count_join_joinEvents (k : Nat) :
    ∀ (n i : Nat),
      (joinEvents i n).count (Event.join k) = if i ≤ k ∧ k < i + n then 1 else 0 := by
  intro n
  induction n with
  | zero =>
    intro i
    have h : ¬ (i ≤ k ∧ k < i) := by omega
    simp [joinEvents, h]
  | succ n ih =>
    intro i
    simp only [joinEvents, List.count_cons, ih, beq_iff_eq, Event.join.injEq]
    by_cases h1 : i = k
    · subst h1
      simp
    · by_cases h2 : i + 1 ≤ k ∧ k < i + 1 + n
      · have h3 : i ≤ k ∧ k < i + (n + 1) := by omega
        simp [h1, h2, h3]
      · have h3 : ¬ (i ≤ k ∧ k < i + (n + 1)) := by omega
        simp [h1, h2, h3]

theorem countP_isSplit_spawnEvents :
    ∀ (rs : List IndexRange) (i : Nat),
      (spawnEvents i rs).countP Event.isSplit = rs.length ∧
        (spawnEvents i rs).countP Event.isJoin = 0 := by
  intro rs
  induction rs with
  | nil => intro i; simp [spawnEvents]
  | cons r rest ih =>
    intro i
    simp [spawnEvents, List.countP_cons, ih, Event.isSplit, Event.isJoin]

theorem countP_isJoin_joinEvents :
    ∀ (n i : Nat),
      (joinEvents i n).countP Event.isJoin = n ∧ (joinEvents i n).countP Event.isSplit = 0 := by
  intro n
  induction n with
  | zero => intro i; simp [joinEvents]
  | succ n ih =>
    intro i
    simp [joinEvents, List.countP_cons, ih, Event.isSplit, Event.isJoin]

/-- In the first loop the split of instance `k` is followed by its invocation. -/
theorem sublist_spawnEvents (k : Nat) (r : IndexRange) :
    ∀ (rs : List IndexRange) (i : Nat), i ≤ k → rs[k - i]? = some r →
      [Event.split k, Event.invoke (Ref.allocated k) r].Sublist (spawnEvents i rs) := by
  intro rs
  induction rs with
  | nil => intro i _ h; simp at h
  | cons r0 rest ih =>
    intro i hik h
    by_cases h1 : i = k
    · subst h1
      simp only [Nat.sub_self, List.getElem?_cons_zero, Option.some.injEq] at h
      subst h
      simp only [spawnEvents]
      exact (List.Sublist.cons₂ _ (List.Sublist.cons₂ _ (List.nil_sublist _)))
    · have h4 : k - i = (k - (i + 1)) + 1 := by omega
      rw [h4] at h
      simp only [List.getElem?_cons_succ] at h
      simp only [spawnEvents]
      exact List.Sublist.cons _ (List.Sublist.cons _ (ih (i + 1) (by omega) h))

theorem sublist_joinEvents (k : Nat) :
    ∀ (n i : Nat), i ≤ k → k < i + n → [Event.join k].Sublist (joinEvents i n) := by
  intro n
  induction n with
  | zero => intro i h1 h2; omega
  | succ n ih =>
    intro i h1 h2
    by_cases h3 : i = k
    · subst h3
      simp only [joinEvents]
      exact List.Sublist.cons₂ _ (List.nil_sublist _)
    · simp only [joinEvents]
      exact List.Sublist.cons _ (ih (i + 1) (by omega) (by omega))

/-- Event counts of the complete log of a reduction over the ranges `rs`. -/
theorem count_reduce_log (rs : List IndexRange) (k : Nat) (r : IndexRange) :
    (spawnEvents 0 rs ++ joinEvents 0 rs.length).count (Event.split k) =
        (if k < rs.length then 1 else 0) ∧
      (spawnEvents 0 rs ++ joinEvents 0 rs.length).count (Event.join k) =
        (if k < rs.length then 1 else 0) ∧
      (spawnEvents 0 rs ++ joinEvents 0 rs.length).count (Event.invoke (Ref.allocated k) r) =
        (if rs[k]? = some r then 1 else 0) := by
  simp [List.count_append, count_split_spawnEvents, count_split_joinEvents,
    count_join_spawnEvents, count_join_joinEvents, count_invoke_spawnEvents,
    count_invoke_joinEvents]

/-! ## The range splitter -/

/-- C8: with hardware concurrency `1`, `splitInputRange` returns exactly one
subrange, equal to the whole input range `(b, e)`. -/
theorem splitInputRange_single_thread (b e : Nat) (hbe : b ≤ e) (he : e < SIZE_MOD) :
    splitInputRange 1 (IndexRange.mk b e) = some [IndexRange.mk b e] := by
  rw [splitInputRange_eq 1 b e (by omega) hbe he]
  have h : b + (e - b) = e := by omega
  simp [chunks_succ, chunks_zero, h]

theorem splitInputRange_single_thread_witness :
    (2 ≤ 10 ∧ 10 < SIZE_MOD) ∧
      splitInputRange 1 (IndexRange.mk 2 10) = some [IndexRange.mk 2 10] :=
  ⟨⟨by decide, by decide⟩, splitInputRange_single_thread 2 10 (by decide) (by decide)⟩

/-- C2: for `b ≤ e` and `C ≥ 1`, `splitInputRange` returns an ordered,
contiguous, non-overlapping sequence: the first subrange begins at `b`, each
later subrange begins where the previous one ends, every subrange satisfies
`b ≤ begin ≤ end ≤ e`, subranges are in ascending order and any two of them are
disjoint as half-open intervals. -/
theorem splitInputRange_ordered_contiguous (C b e : Nat) (hC : 1 ≤ C) (hbe : b ≤ e)
    (he : e < SIZE_MOD) :
    ∃ rs, splitInputRange C (IndexRange.mk b e) = some rs ∧
      (∃ r0 rest, rs = r0 :: rest ∧ r0.begin_ = b) ∧
      (∀ (i : Nat) (r r1 : IndexRange), rs[i]? = some r → rs[i + 1]? = some r1 → r1.begin_ = r.end_) ∧
      (∀ r, r ∈ rs → b ≤ r.begin_ ∧ r.begin_ ≤ r.end_ ∧ r.end_ ≤ e) ∧
      (∀ (i j : Nat) (ri rj : IndexRange), i < j → rs[i]? = some ri → rs[j]? = some rj → ri.end_ ≤ rj.begin_) ∧
      (∀ (i j : Nat) (ri rj : IndexRange), i < j → rs[i]? = some ri → rs[j]? = some rj →
        ∀ x, ¬ ((ri.begin_ ≤ x ∧ x < ri.end_) ∧ (rj.begin_ ≤ x ∧ x < rj.end_))) := by
  have hfit : b + C * ((e - b) / C) ≤ e := by
    have := Nat.mul_div_le (e - b) C
    omega
  have hget : ∀ i r, (chunks b ((e - b) / C) C)[i]? = some r →
      i < C ∧ r = IndexRange.mk (b + i * ((e - b) / C)) (b + (i + 1) * ((e - b) / C)) := by
    intro i r h
    rw [chunks_getElem?] at h
    by_cases hi : i < C
    · simp only [hi, if_true, Option.some.injEq] at h
      exact ⟨hi, h.symm⟩
    · simp [hi] at h
  have hord : ∀ (i j : Nat) (ri rj : IndexRange), i < j → (chunks b ((e - b) / C) C)[i]? = some ri →
      (chunks b ((e - b) / C) C)[j]? = some rj → ri.end_ ≤ rj.begin_ := by
    intro i j ri rj hij hi hj
    obtain ⟨_, rfl⟩ := hget i ri hi
    obtain ⟨_, rfl⟩ := hget j rj hj
    have : (i + 1) * ((e - b) / C) ≤ j * ((e - b) / C) := Nat.mul_le_mul_right _ hij
    simp only
    omega
  refine ⟨chunks b ((e - b) / C) C, splitInputRange_eq C b e hC hbe he, ?_, ?_, ?_, hord, ?_⟩
  · obtain ⟨n, rfl⟩ : ∃ n, C = n + 1 := ⟨C - 1, by omega⟩
    exact ⟨_, _, chunks_succ _ _ _, rfl⟩
  · intro i r r1 h h1
    obtain ⟨_, rfl⟩ := hget i r h
    obtain ⟨_, rfl⟩ := hget (i + 1) r1 h1
    rfl
  · intro r hr
    have h := chunks_bounds b ((e - b) / C) C r hr
    have h1 : b + C * ((e - b) / C) ≤ e := hfit
    generalize (e - b) / C = q at h h1
    generalize C * q = m at h h1
    omega
  · intro i j ri rj hij hi hj x hx
    have := hord i j ri rj hij hi hj
    omega

theorem splitInputRange_ordered_contiguous_witness :
    (1 ≤ 3 ∧ 0 ≤ 10 ∧ 10 < SIZE_MOD) ∧
    ∃ rs, splitInputRange 3 (IndexRange.mk 0 10) = some rs ∧
      (∃ r0 rest, rs = r0 :: rest ∧ r0.begin_ = 0) ∧
      (∀ (i : Nat) (r r1 : IndexRange), rs[i]? = some r → rs[i + 1]? = some r1 → r1.begin_ = r.end_) ∧
      (∀ r, r ∈ rs → 0 ≤ r.begin_ ∧ r.begin_ ≤ r.end_ ∧ r.end_ ≤ 10) ∧
      (∀ (i j : Nat) (ri rj : IndexRange), i < j → rs[i]? = some ri → rs[j]? = some rj → ri.end_ ≤ rj.begin_) ∧
      (∀ (i j : Nat) (ri rj : IndexRange), i < j → rs[i]? = some ri → rs[j]? = some rj →
        ∀ x, ¬ ((ri.begin_ ≤ x ∧ x < ri.end_) ∧ (rj.begin_ ≤ x ∧ x < rj.end_))) :=
  ⟨⟨by decide, by decide, by decide⟩,
    splitInputRange_ordered_contiguous 3 0 10 (by decide) (by decide) (by decide)⟩

/-- C9: for `b ≤ e` and `C ≥ 1`, `splitInputRange` returns exactly `C`
subranges, the `i`-th being `[b + i * q, b + (i + 1) * q)` with
`q = (e - b) / C`; the clamp to `e` never takes effect and the addition never
wraps.  The subranges cover exactly the prefix `[b, b + C * q)`, the trailing
`(e - b) % C` indices belong to no subrange, and when `e - b < C` every subrange
is empty, so `ttParallelFor` invokes the worker on empty ranges only. -/
theorem splitInputRange_equal_chunks_drop_remainder (C b e : Nat) (hC : 1 ≤ C) (hbe : b ≤ e)
    (he : e < SIZE_MOD) :
    ∃ rs, splitInputRange C (IndexRange.mk b e) = some rs ∧
      rs.length = C ∧
      (∀ (i : Nat), i < C → rs[i]? =
        some (IndexRange.mk (b + i * ((e - b) / C)) (b + (i + 1) * ((e - b) / C)))) ∧
      (∀ (i : Nat), i < C →
        min ((b + i * ((e - b) / C) + (e - b) / C) % SIZE_MOD) e =
          b + i * ((e - b) / C) + (e - b) / C) ∧
      (∀ (x : Nat), (∃ r, r ∈ rs ∧ r.begin_ ≤ x ∧ x < r.end_) ↔
        (b ≤ x ∧ x < b + C * ((e - b) / C))) ∧
      b + C * ((e - b) / C) + (e - b) % C = e ∧
      (∀ (x : Nat), b + C * ((e - b) / C) ≤ x → x < e →
        ¬ ∃ r, r ∈ rs ∧ r.begin_ ≤ x ∧ x < r.end_) ∧
      (e - b < C →
        (∀ r, r ∈ rs → r.begin_ = r.end_) ∧
        ∀ (σ : Type) (w : Worker σ) (s0 : σ), ∃ s log,
          ttParallelFor C b e w s0 = some (.returned (s, log)) ∧
          log = rs.map (Event.invoke Ref.caller) ∧
          ∀ (t : Ref) (r : IndexRange), Event.invoke t r ∈ log → r.begin_ = r.end_) := by
  have hsplit := splitInputRange_eq C b e hC hbe he
  have hfit : b + C * ((e - b) / C) ≤ e := by
    have := Nat.mul_div_le (e - b) C
    omega
  have hcover : ∀ (x : Nat), (∃ r, r ∈ chunks b ((e - b) / C) C ∧ r.begin_ ≤ x ∧ x < r.end_) ↔
      (b ≤ x ∧ x < b + C * ((e - b) / C)) := by
    intro x
    rw [chunks_cover]
  refine ⟨chunks b ((e - b) / C) C, hsplit, chunks_length _ _ _, ?_, ?_, hcover, ?_, ?_, ?_⟩
  · intro i hi
    rw [chunks_getElem?]
    simp [hi]
  · intro i hi
    have h1 : (i + 1) * ((e - b) / C) ≤ C * ((e - b) / C) := Nat.mul_le_mul_right _ hi
    have h2 : (i + 1) * ((e - b) / C) = i * ((e - b) / C) + (e - b) / C := by ring
    have h3 : b + i * ((e - b) / C) + (e - b) / C ≤ e := by omega
    rw [Nat.mod_eq_of_lt (by omega)]
    exact Nat.min_eq_left h3
  · have := Nat.div_add_mod (e - b) C
    omega
  · intro x hx1 _ hx3
    have := (hcover x).1 hx3
    omega
  · intro hlt
    have hq : (e - b) / C = 0 := Nat.div_eq_of_lt hlt
    have hempty : ∀ r, r ∈ chunks b ((e - b) / C) C → r.begin_ = r.end_ := by
      intro r hr
      have := chunks_bounds b ((e - b) / C) C r hr
      omega
    refine ⟨hempty, ?_⟩
    intro σ w s0
    refine ⟨_, _, ttParallelFor_eq C b e w s0 _ hsplit, rfl, ?_⟩
    intro t r hmem
    simp only [List.mem_map, Event.invoke.injEq] at hmem
    obtain ⟨r1, hr1, _, rfl⟩ := hmem
    exact hempty r1 hr1

theorem splitInputRange_equal_chunks_drop_remainder_witness :
    (1 ≤ 3 ∧ 0 ≤ 10 ∧ 10 < SIZE_MOD) ∧
    ∃ rs, splitInputRange 3 (IndexRange.mk 0 10) = some rs ∧
      rs.length = 3 ∧
      (∀ (i : Nat), i < 3 → rs[i]? =
        some (IndexRange.mk (0 + i * ((10 - 0) / 3)) (0 + (i + 1) * ((10 - 0) / 3)))) ∧
      (∀ (i : Nat), i < 3 →
        min ((0 + i * ((10 - 0) / 3) + (10 - 0) / 3) % SIZE_MOD) 10 =
          0 + i * ((10 - 0) / 3) + (10 - 0) / 3) ∧
      (∀ (x : Nat), (∃ r, r ∈ rs ∧ r.begin_ ≤ x ∧ x < r.end_) ↔
        (0 ≤ x ∧ x < 0 + 3 * ((10 - 0) / 3))) ∧
      0 + 3 * ((10 - 0) / 3) + (10 - 0) % 3 = 10 ∧
      (∀ (x : Nat), 0 + 3 * ((10 - 0) / 3) ≤ x → x < 10 →
        ¬ ∃ r, r ∈ rs ∧ r.begin_ ≤ x ∧ x < r.end_) ∧
      (10 - 0 < 3 →
        (∀ r, r ∈ rs → r.begin_ = r.end_) ∧
        ∀ (σ : Type) (w : Worker σ) (s0 : σ), ∃ s log,
          ttParallelFor 3 0 10 w s0 = some (.returned (s, log)) ∧
          log = rs.map (Event.invoke Ref.caller) ∧
          ∀ (t : Ref) (r : IndexRange), Event.invoke t r ∈ log → r.begin_ = r.end_) :=
  ⟨⟨by decide, by decide, by decide⟩,
    splitInputRange_equal_chunks_drop_remainder 3 0 10 (by decide) (by decide) (by decide)⟩

/-- C1 (evaluation at a failing input): on `[0, 10)` with three threads the
subranges are `[0,3)`, `[3,6)`, `[6,9)`; the last one ends at `9`, not at `10`,
and index `9` lies in no subrange. -/
theorem splitInputRange_remainder_not_covered :
    splitInputRange 3 (IndexRange.mk 0 10) =
        some [IndexRange.mk 0 3, IndexRange.mk 3 6, IndexRange.mk 6 9] ∧
      (∀ r, r ∈ [IndexRange.mk 0 3, IndexRange.mk 3 6, IndexRange.mk 6 9] →
        ¬ (r.begin_ ≤ 9 ∧ 9 < r.end_)) ∧
      (0 ≤ 10 ∧ 10 < SIZE_MOD) := by
  refine ⟨by decide, ?_, by decide, by decide⟩
  intro r hr
  simp only [List.mem_cons, List.mem_singleton, List.not_mem_nil, or_false] at hr
  rcases hr with rfl | rfl | rfl <;> simp

/-- C6 (evaluation at a failing input): when the hardware-concurrency query
reports `0`, `splitInputRange` divides the length by zero: no list of subranges
is produced, for any range. -/
theorem splitInputRange_zero_concurrency (range : IndexRange) :
    splitInputRange 0 range = none := by
  simp [splitInputRange]

/-! ## The thread-pool backend -/

/-- C7: worker errors are silent in the thread-pool backend.  Whatever the
worker does on each subrange (return or raise), `workerThread` returns, and
`ttParallelFor` invokes the worker once on every subrange and returns normally. -/
theorem ttParallelFor_fail_silent {σ : Type} (C b e : Nat) (hC : 1 ≤ C) (hbe : b ≤ e)
    (he : e < SIZE_MOD) (w : Worker σ) (s0 : σ) :
    (∀ (data : Work) (obj : σ) (log : List Event), ∃ x,
      workerThread w data obj log = .returned x ∧
        x.2 = log ++ [Event.invoke data.worker data.range]) ∧
    ∃ rs s, splitInputRange C (IndexRange.mk b e) = some rs ∧
      ttParallelFor C b e w s0 = some (.returned (s, rs.map (Event.invoke Ref.caller))) := by
  refine ⟨?_, ?_⟩
  · intro data obj log
    exact ⟨_, workerThread_eq w data obj log, rfl⟩
  · have hsplit := splitInputRange_eq C b e hC hbe he
    exact ⟨_, _, hsplit, ttParallelFor_eq C b e w s0 _ hsplit⟩

theorem ttParallelFor_fail_silent_witness :
    (1 ≤ 3 ∧ 0 ≤ 10 ∧ 10 < SIZE_MOD) ∧
    ((∀ (data : Work) (obj : Unit) (log : List Event), ∃ x,
      workerThread raisingWorker data obj log = .returned x ∧
        x.2 = log ++ [Event.invoke data.worker data.range]) ∧
    ∃ rs s, splitInputRange 3 (IndexRange.mk 0 10) = some rs ∧
      ttParallelFor 3 0 10 raisingWorker () =
        some (.returned (s, rs.map (Event.invoke Ref.caller)))) :=
  ⟨⟨by decide, by decide, by decide⟩,
    ttParallelFor_fail_silent 3 0 10 (by decide) (by decide) (by decide) raisingWorker ()⟩

/-- C3 (evaluation at a failing input): on `[0, 100)` with three threads the
square-writing worker is invoked on subranges of total length `99`, and
`buffer[99]` keeps its initial value `0` instead of `99 * 99`. -/
theorem ttParallelFor_misses_trailing_indices :
    (ttParallelFor 3 0 100 squareWorker (List.replicate 100 0)).map
        (fun o => (invokedLength o.state.2, o.state.1[99]?, o.state.1[98]?)) =
      some (99, some 0, some (98 * 98)) ∧ (0 ≤ 100 ∧ 100 < SIZE_MOD) := by
  decide

/-- C4 (evaluation at a failing input): summing the indices of `[0, 100)` with
three threads leaves `4851` in the caller's worker, while one thread gives
`4950`. -/
theorem ttParallelReduce_sum_depends_on_concurrency :
    (ttParallelReduce 3 0 100 sumWorker 0).map (fun o => o.state.1) = some 4851 ∧
      (ttParallelReduce 1 0 100 sumWorker 0).map (fun o => o.state.1) = some 4950 := by
  decide

/-- C5 (counterexample): with two threads on `[0, 10)` and a worker whose
`join` raises, `ttParallelReduce` is left by the exception of the first join:
two splits were made and one join was called, and instance `1`, which was split
and invoked on `[5, 10)`, is never passed to a join. -/
theorem ttParallelReduce_join_raises_unbalanced :
    (1 ≤ 2 ∧ 0 ≤ 10 ∧ 10 < SIZE_MOD) ∧
    ttParallelReduce 2 0 10 joinRaisingWorker 0 =
      some (.raised (0,
        [Event.split 0, Event.invoke (Ref.allocated 0) (IndexRange.mk 0 5),
          Event.split 1, Event.invoke (Ref.allocated 1) (IndexRange.mk 5 10),
          Event.join 0])) ∧
    (ttParallelReduce 2 0 10 joinRaisingWorker 0).map
        (fun o => (o.state.2.countP Event.isSplit, o.state.2.countP Event.isJoin,
          o.state.2.count (Event.split 1), o.state.2.count (Event.join 1))) =
      some (2, 1, 1, 0) := by
  decide

/-- C5 (amended): reduction balance in `ttParallelReduce` for a worker whose
constructor, `split` and `join` return (its invocations may raise).  The call
returns; it performs `C` splits and `C` joins; every instance created by a split
is split once, invoked exactly once, on its own subrange, and then joined
exactly once into the caller's instance, in this order; every joined and every
invoked instance was created by a split of this call; and the caller's final
state is the result of joining, in index order, the instances so obtained. -/
theorem ttParallelReduce_split_join_balance {σ : Type} (C b e : Nat) (hC : 1 ≤ C)
    (hbe : b ≤ e) (he : e < SIZE_MOD) (w : ReduceWorker σ) (s0 f : σ)
    (hfresh : w.fresh = some f)
    (hsplit : ∃ p, w.split f s0 = .returned p)
    (hjoin : ∀ (s rhs : σ), ∃ s1, w.join s rhs = .returned s1) :
    ∃ rs log, splitInputRange C (IndexRange.mk b e) = some rs ∧
      ttParallelReduce C b e w s0 =
        some (.returned
          (List.foldl (fun s p => (w.join s p).state) s0
            (rs.map (fun r => (w.call (w.split f s0).state r.begin_ r.end_).state)), log)) ∧
      log.countP Event.isSplit = C ∧ log.countP Event.isJoin = C ∧
      (∀ (k : Nat), Event.split k ∈ log →
        log.count (Event.split k) = 1 ∧ log.count (Event.join k) = 1 ∧
        ∃ r, rs[k]? = some r ∧
          log.count (Event.invoke (Ref.allocated k) r) = 1 ∧
          (∀ (r1 : IndexRange), Event.invoke (Ref.allocated k) r1 ∈ log → r1 = r) ∧
          [Event.split k, Event.invoke (Ref.allocated k) r, Event.join k].Sublist log) ∧
      (∀ (k : Nat), Event.join k ∈ log → Event.split k ∈ log) ∧
      (∀ (t : Ref) (r : IndexRange), Event.invoke t r ∈ log →
        ∃ k, t = Ref.allocated k ∧ Event.split k ∈ log) := by
  have hrs := splitInputRange_eq C b e hC hbe he
  have hlen : (chunks b ((e - b) / C) C).length = C := chunks_length _ _ _
  generalize chunks b ((e - b) / C) C = rs at hrs hlen
  have hcount := count_reduce_log rs
  have hsplitmem : ∀ (k : Nat),
      Event.split k ∈ spawnEvents 0 rs ++ joinEvents 0 rs.length ↔ k < rs.length := by
    intro k
    rw [← List.one_le_count_iff, (hcount k (IndexRange.mk 0 0)).1]
    by_cases h : k < rs.length <;> simp [h]
  have hjoinmem : ∀ (k : Nat),
      Event.join k ∈ spawnEvents 0 rs ++ joinEvents 0 rs.length ↔ k < rs.length := by
    intro k
    rw [← List.one_le_count_iff, (hcount k (IndexRange.mk 0 0)).2.1]
    by_cases h : k < rs.length <;> simp [h]
  have hinvmem : ∀ (k : Nat) (r : IndexRange),
      Event.invoke (Ref.allocated k) r ∈ spawnEvents 0 rs ++ joinEvents 0 rs.length ↔
        rs[k]? = some r := by
    intro k r
    rw [← List.one_le_count_iff, (hcount k r).2.2]
    by_cases h : rs[k]? = some r <;> simp [h]
  refine ⟨rs, _, hrs, ttParallelReduce_eq C b e w s0 f hfresh hsplit hjoin rs hrs,
    ?_, ?_, ?_, ?_, ?_⟩
  · rw [List.countP_append, (countP_isSplit_spawnEvents rs 0).1,
      (countP_isJoin_joinEvents rs.length 0).2, hlen]
    simp
  · rw [List.countP_append, (countP_isSplit_spawnEvents rs 0).2,
      (countP_isJoin_joinEvents rs.length 0).1, hlen]
    simp
  · intro k hk
    have hk1 : k < rs.length := (hsplitmem k).1 hk
    have hget : rs[k]? = some (rs[k]) := List.getElem?_eq_getElem hk1
    refine ⟨?_, ?_, rs[k], hget, ?_, ?_, ?_⟩
    · rw [(hcount k (IndexRange.mk 0 0)).1]
      simp [hk1]
    · rw [(hcount k (IndexRange.mk 0 0)).2.1]
      simp [hk1]
    · rw [(hcount k rs[k]).2.2]
      simp [hget]
    · intro r1 hr1
      have := (hinvmem k r1).1 hr1
      rw [hget] at this
      exact (Option.some.inj this).symm
    · have h1 := sublist_spawnEvents k rs[k] rs 0 (Nat.zero_le k) (by simp)
      have h2 := sublist_joinEvents k rs.length 0 (Nat.zero_le k) (by omega)
      exact List.Sublist.append h1 h2
  · intro k hk
    exact (hsplitmem k).2 ((hjoinmem k).1 hk)
  · intro t r hmem
    rcases List.mem_append.1 hmem with h | h
    · obtain ⟨k, hk, _, hk2⟩ := mem_invoke_spawnEvents _ _ _ _ h
      refine ⟨k, hk, (hsplitmem k).2 ?_⟩
      rw [Nat.sub_zero] at hk2
      by_contra hlt
      rw [List.getElem?_eq_none (by omega)] at hk2
      cases hk2
    · have := count_invoke_joinEvents t r rs.length 0
      exact absurd h (List.count_eq_zero.1 this)

theorem ttParallelReduce_split_join_balance_witness :
    ((1 ≤ 3 ∧ 0 ≤ 100 ∧ 100 < SIZE_MOD) ∧ sumWorker.fresh = some 0 ∧
      (∃ p, sumWorker.split 0 0 = .returned p) ∧
      (∀ (s rhs : Nat), ∃ s1, sumWorker.join s rhs = .returned s1)) ∧
    ∃ rs log, splitInputRange 3 (IndexRange.mk 0 100) = some rs ∧
      ttParallelReduce 3 0 100 sumWorker 0 =
        some (.returned
          (List.foldl (fun s p => (sumWorker.join s p).state) 0
            (rs.map (fun r =>
              (sumWorker.call (sumWorker.split 0 0).state r.begin_ r.end_).state)),
            log)) ∧
      log.countP Event.isSplit = 3 ∧ log.countP Event.isJoin = 3 ∧
      (∀ (k : Nat), Event.split k ∈ log →
        log.count (Event.split k) = 1 ∧ log.count (Event.join k) = 1 ∧
        ∃ r, rs[k]? = some r ∧
          log.count (Event.invoke (Ref.allocated k) r) = 1 ∧
          (∀ (r1 : IndexRange), Event.invoke (Ref.allocated k) r1 ∈ log → r1 = r) ∧
          [Event.split k, Event.invoke (Ref.allocated k) r, Event.join k].Sublist log) ∧
      (∀ (k : Nat), Event.join k ∈ log → Event.split k ∈ log) ∧
      (∀ (t : Ref) (r : IndexRange), Event.invoke t r ∈ log →
        ∃ k, t = Ref.allocated k ∧ Event.split k ∈ log) :=
  ⟨⟨⟨by decide, by decide, by decide⟩, rfl, ⟨_, rfl⟩, fun _ _ => ⟨_, rfl⟩⟩,
    ttParallelReduce_split_join_balance 3 0 100 (by decide) (by decide) (by decide)
      sumWorker 0 0 rfl ⟨_, rfl⟩ (fun _ _ => ⟨_, rfl⟩)⟩

end RcppParallel
